import Mathlib

/-
Verification of the ALP (Aircraft Landing Problem) solver core.

Shallow embedding of the Rust sources:
  - src/instance.rs            : the instance record.
  - src/resolution/compression.rs : meta-separation, decision map, reachable
    meta-state dictionary, state compression, decompression.
  - src/resolution/dominance.rs   : the dominance key (equality and hashing).
  - src/resolution/solve.rs       : printed best value and solution replay.
The problem model (module resolution/model) is not among the provided
sources; the definitions that stand in for it are modelled from the
specification and are marked as such in their doc comments.

Machine integers (isize) are embedded as Int, usize as Nat; vectors as
lists.  Wherever Rust would panic on an out-of-range index, the embedding
totalizes the access with an explicit default; theorems carry the bounds
needed for the accesses to be in range (or exhibit the out-of-range access,
for the replay bug).
-/

namespace ALP

/-- isize::MAX on a 64-bit target. -/
def isize_max : Int := 2 ^ 63 - 1

/-- Per-runway state, from model.rs via the spec: last arrival time and the
class of the last aircraft landed on this runway (-1 when still empty). -/
structure RunwayState where
  prev_time : Int
  prev_class : Int
deriving DecidableEq, Repr

instance : Inhabited RunwayState := ⟨⟨-1, -1⟩⟩

/-- The DP state: remaining aircraft per class, and one RunwayState per
runway. -/
structure AlpState where
  rem : List Nat
  info : List RunwayState
deriving DecidableEq, Repr

/-- The instance record of src/instance.rs. -/
structure AlpInstance where
  nb_classes : Nat
  nb_aircrafts : Nat
  nb_runways : Nat
  classes : List Nat
  target : List Int
  latest : List Int
  separation : List (List Int)
deriving DecidableEq, Repr

/-- Rust derived Ord on Vec of isize: lexicographic element comparison, a
strict prefix being smaller. -/
def vecLt : List Int → List Int → Bool
  | [], [] => false
  | [], _ :: _ => true
  | _ :: _, [] => false
  | a :: as1, b :: bs => if a < b then true else if b < a then false else vecLt as1 bs

/-- Rust derived Ord on the pair (isize, Vec of isize), as stored in the
BTreeSet of the reachable meta-state dictionary. -/
def pairLt (x y : Int × List Int) : Bool :=
  if x.1 < y.1 then true else if y.1 < x.1 then false else vecLt x.2 y.2

def pairLe (x y : Int × List Int) : Bool :=
  pairLt x y || decide (x = y)

/-- src/resolution/solve.rs line 159: the printed best value is the negated
maximize() value when present, isize::MAX otherwise. -/
def printed_best_value (best : Option Int) : Int :=
  (best.map (fun v => -v)).getD isize_max

/-- src/resolution/compression.rs lines 195-197: decompress clones the
solution vector (decisions embedded as their integer encodings). -/
def decompress (solution : List Int) : List Int :=
  solution

/- ===== generic list helpers used by several embeddings ===== -/

theorem getD_set_self {α : Type} (l : List α) (i : Nat) (v d : α) (h : i < l.length) :
    (l.set i v).getD i d = v := by
  induction l generalizing i with
  | nil => simp at h
  | cons x xs ih =>
    cases i with
    | zero => rfl
    | succ n => simpa using ih n (by simpa using h)

theorem getD_set_other {α : Type} (l : List α) (i j : Nat) (v d : α) (h : i ≠ j) :
    (l.set i v).getD j d = l.getD j d := by
  induction l generalizing i j with
  | nil => rfl
  | cons x xs ih =>
    cases i with
    | zero =>
      cases j with
      | zero => exact absurd rfl h
      | succ m => rfl
    | succ n =>
      cases j with
      | zero => rfl
      | succ m => simpa using ih n m (by omega)

theorem getD_mem_of_lt {α : Type} (l : List α) (i : Nat) (d : α) (h : i < l.length) :
    l.getD i d ∈ l := by
  induction l generalizing i with
  | nil => simp at h
  | cons x xs ih =>
    cases i with
    | zero => exact List.mem_cons_self x xs
    | succ n => exact List.mem_cons_of_mem x (ih n (by simpa using h))

theorem getD_replicate_of_lt {α : Type} (n i : Nat) (v d : α) (h : i < n) :
    (List.replicate n v).getD i d = v := by
  induction n generalizing i with
  | zero => omega
  | succ m ih =>
    cases i with
    | zero => rfl
    | succ k => simpa [List.replicate_succ] using ih k (by omega)

/-- A loop that repeatedly writes cell g c of an array through an update
function, folded over a list of loop items: cell a of the result is the fold
of the update function over the items that target cell a. -/
theorem fold_set_getD {α β : Type} (g : β → Nat) (upd : α → β → α) (d : α) :
    ∀ (cs : List β) (acc : List α) (a : Nat),
      (∀ c ∈ cs, g c < acc.length) →
      ((cs.foldl (fun m c => m.set (g c) (upd (m.getD (g c) d) c)) acc).getD a d)
        = (cs.filter (fun c => decide (g c = a))).foldl upd (acc.getD a d) := by
  intro cs
  induction cs with
  | nil => intro acc a _; rfl
  | cons c cs ih =>
    intro acc a hmem
    have hc : g c < acc.length := hmem c (List.mem_cons_self c cs)
    have hlen : (acc.set (g c) (upd (acc.getD (g c) d) c)).length = acc.length :=
      List.length_set acc _ _
    have hrest : ∀ x ∈ cs, g x < (acc.set (g c) (upd (acc.getD (g c) d) c)).length := by
      intro x hx; rw [hlen]; exact hmem x (List.mem_cons_of_mem c hx)
    have ihres := ih (acc.set (g c) (upd (acc.getD (g c) d) c)) a hrest
    by_cases hga : g c = a
    · have hset : (acc.set (g c) (upd (acc.getD (g c) d) c)).getD a d
          = upd (acc.getD a d) c := by
        subst hga; exact getD_set_self acc (g c) _ d hc
      have hfil : List.filter (fun x => decide (g x = a)) (c :: cs)
          = c :: List.filter (fun x => decide (g x = a)) cs := by
        simp [List.filter_cons, hga]
      simp only [List.foldl_cons]
      rw [hfil, List.foldl_cons, ihres, hset]
    · have hset : (acc.set (g c) (upd (acc.getD (g c) d) c)).getD a d
          = acc.getD a d := getD_set_other acc (g c) a _ d hga
      have hfil : List.filter (fun x => decide (g x = a)) (c :: cs)
          = List.filter (fun x => decide (g x = a)) cs := by
        simp [List.filter_cons, hga]
      simp only [List.foldl_cons]
      rw [hfil, ihres, hset]

theorem foldl_min_le_init (vs : List Int) (i : Int) : vs.foldl min i ≤ i := by
  induction vs generalizing i with
  | nil => exact le_refl i
  | cons v vs ih => exact le_trans (ih (min i v)) (min_le_left i v)

theorem foldl_min_le_mem (vs : List Int) (i : Int) (x : Int) (hx : x ∈ vs) :
    vs.foldl min i ≤ x := by
  induction vs generalizing i with
  | nil => simp at hx
  | cons v vs ih =>
    rcases List.mem_cons.mp hx with h | h
    · subst h; exact le_trans (foldl_min_le_init vs (min i x)) (min_le_right i x)
    · exact ih (min i v) h

theorem foldl_min_cases (vs : List Int) (i : Int) :
    vs.foldl min i = i ∨ vs.foldl min i ∈ vs := by
  induction vs generalizing i with
  | nil => exact Or.inl rfl
  | cons v vs ih =>
    rcases ih (min i v) with h | h
    · rcases min_cases i v with ⟨he, _⟩ | ⟨he, _⟩
      · exact Or.inl (by rw [List.foldl_cons, h, he])
      · exact Or.inr (by rw [List.foldl_cons, h, he]; exact List.mem_cons_self v vs)
    · exact Or.inr (List.mem_cons_of_mem v h)

/- ===== compute_meta_separation (compression.rs lines 84-94) ===== -/

/-- The iteration sequence of the two nested loops over membership indices
in compute_meta_separation, row-major as in the source. -/
def pair_range (K : Nat) : List (Nat × Nat) :=
  (List.range K).flatMap (fun i => (List.range K).map (fun j => (i, j)))

/-- Access separation[i][j] of the instance matrix. -/
def sep_at (sep : List (List Int)) (p : Nat × Nat) : Int :=
  (sep.getD p.1 []).getD p.2 0

/-- compression.rs lines 84-94: start from an n_meta_classes square matrix
filled with isize::MAX and, for every pair (i, j) of original classes, set
meta_separation[a][b] to its minimum with separation[i][j], where
a = membership[i] and b = membership[j]. -/
def compute_meta_separation (n_meta_classes : Nat) (membership : List Nat)
    (sep : List (List Int)) : List (List Int) :=
  (pair_range membership.length).foldl
    (fun mat p =>
      let a := membership.getD p.1 0
      let b := membership.getD p.2 0
      mat.set a ((mat.getD a []).set b (min ((mat.getD a []).getD b 0) (sep_at sep p))))
    (List.replicate n_meta_classes (List.replicate n_meta_classes isize_max))

theorem mem_pair_range (K : Nat) (p : Nat × Nat) :
    p ∈ pair_range K ↔ p.1 < K ∧ p.2 < K := by
  cases p with
  | mk i j =>
    simp only [pair_range, List.mem_flatMap, List.mem_map, List.mem_range]
    constructor
    · rintro ⟨a, ha, b, hb, he⟩
      cases he; exact ⟨ha, hb⟩
    · rintro ⟨hi, hj⟩
      exact ⟨i, hi, j, hj, rfl⟩

/-- The separation values of the original-class pairs mapped to meta-pair
(a, b) by the membership vector. -/
def meta_pairs_vals (membership : List Nat) (sep : List (List Int)) (a b : Nat) :
    List Int :=
  ((pair_range membership.length).filter
    (fun p => decide (membership.getD p.1 0 = a) && decide (membership.getD p.2 0 = b))).map
    (sep_at sep)

theorem meta_sep_entry (M : Nat) (membership : List Nat) (sep : List (List Int))
    (a b : Nat) (hmem : ∀ c ∈ membership, c < M) (ha : a < M) (hb : b < M) :
    ((compute_meta_separation M membership sep).getD a []).getD b 0
      = (meta_pairs_vals membership sep a b).foldl min isize_max := by
  have hmem1 : ∀ p ∈ pair_range membership.length,
      membership.getD p.1 0 < (List.replicate M (List.replicate M isize_max)).length := by
    intro p hp
    rw [List.length_replicate]
    exact hmem _ (getD_mem_of_lt membership p.1 0 ((mem_pair_range _ p).mp hp).1)
  have houter := fold_set_getD
    (fun p : Nat × Nat => membership.getD p.1 0)
    (fun row p => row.set (membership.getD p.2 0)
      (min (row.getD (membership.getD p.2 0) 0) (sep_at sep p)))
    ([] : List Int) (pair_range membership.length)
    (List.replicate M (List.replicate M isize_max)) a hmem1
  have hrow0 : (List.replicate M (List.replicate M isize_max)).getD a []
      = List.replicate M isize_max := getD_replicate_of_lt M a _ [] ha
  have hmem2 : ∀ p ∈ (pair_range membership.length).filter
      (fun p => decide (membership.getD p.1 0 = a)),
      membership.getD p.2 0 < (List.replicate M isize_max).length := by
    intro p hp
    rw [List.length_replicate]
    exact hmem _ (getD_mem_of_lt membership p.2 0
      ((mem_pair_range _ p).mp (List.mem_filter.mp hp).1).2)
  have hinner := fold_set_getD
    (fun p : Nat × Nat => membership.getD p.2 0)
    (fun v p => min v (sep_at sep p))
    (0 : Int)
    ((pair_range membership.length).filter (fun p => decide (membership.getD p.1 0 = a)))
    (List.replicate M isize_max) b hmem2
  have hcell0 : (List.replicate M isize_max).getD b 0 = isize_max :=
    getD_replicate_of_lt M b _ 0 hb
  rw [compute_meta_separation, houter, hrow0, hinner, hcell0,
    List.filter_filter, meta_pairs_vals]
  rw [List.foldl_map]
  congr 1
  apply List.filter_congr
  intro p _
  exact Bool.and_comm _ _

/-- The meta-separation entry at (a, b) is the minimum of the original
separations over the class pairs mapped to (a, b), whenever that pair set is
non-empty. -/
theorem meta_sep_min_spec (M : Nat) (membership : List Nat) (sep : List (List Int))
    (a b : Nat) (hmem : ∀ c ∈ membership, c < M) (ha : a < M) (hb : b < M)
    (hsep : ∀ p ∈ pair_range membership.length, sep_at sep p ≤ isize_max)
    (hne : meta_pairs_vals membership sep a b ≠ []) :
    ((compute_meta_separation M membership sep).getD a []).getD b 0
        ∈ meta_pairs_vals membership sep a b
      ∧ ∀ v ∈ meta_pairs_vals membership sep a b,
        ((compute_meta_separation M membership sep).getD a []).getD b 0 ≤ v := by
  have hchar := meta_sep_entry M membership sep a b hmem ha hb
  have hle : ∀ v ∈ meta_pairs_vals membership sep a b,
      ((compute_meta_separation M membership sep).getD a []).getD b 0 ≤ v := by
    intro v hv
    rw [hchar]
    exact foldl_min_le_mem _ _ v hv
  refine ⟨?_, hle⟩
  rcases foldl_min_cases (meta_pairs_vals membership sep a b) isize_max with h | h
  · rcases List.exists_mem_of_ne_nil _ hne with ⟨v, hv⟩
    have hv_le : v ≤ isize_max := by
      rcases List.mem_map.mp hv with ⟨p, hp, he⟩
      rw [← he]
      exact hsep p (List.mem_filter.mp hp).1
    have : ((compute_meta_separation M membership sep).getD a []).getD b 0 = v := by
      have h1 := hle v hv
      rw [hchar] at h1 ⊢
      omega
    rw [this]; exact hv
  · rw [hchar]; exact h

/-- C2: the meta-separation is dominated by the original separation through
the membership map, and each entry with inhabited meta-classes is exactly
the minimum over the mapped original pairs. -/
theorem C2_meta_separation (K M : Nat) (membership : List Nat) (sep : List (List Int))
    (hK : membership.length = K)
    (hmem : ∀ c ∈ membership, c < M)
    (hsep : ∀ p ∈ pair_range K, sep_at sep p ≤ isize_max) :
    (∀ c < K, ∀ c2 < K,
      ((compute_meta_separation M membership sep).getD (membership.getD c 0) []).getD
          (membership.getD c2 0) 0 ≤ sep_at sep (c, c2))
    ∧ (∀ a < M, ∀ b < M,
        (∃ c < K, membership.getD c 0 = a) → (∃ c2 < K, membership.getD c2 0 = b) →
        ((compute_meta_separation M membership sep).getD a []).getD b 0
            ∈ meta_pairs_vals membership sep a b
          ∧ ∀ v ∈ meta_pairs_vals membership sep a b,
            ((compute_meta_separation M membership sep).getD a []).getD b 0 ≤ v) := by
  subst hK
  constructor
  · intro c hc c2 hc2
    have ha : membership.getD c 0 < M :=
      hmem _ (getD_mem_of_lt membership c 0 hc)
    have hb : membership.getD c2 0 < M :=
      hmem _ (getD_mem_of_lt membership c2 0 hc2)
    have hchar := meta_sep_entry M membership sep _ _ hmem ha hb
    rw [hchar]
    apply foldl_min_le_mem
    apply List.mem_map.mpr
    refine ⟨(c, c2), ?_, rfl⟩
    apply List.mem_filter.mpr
    refine ⟨(mem_pair_range _ (c, c2)).mpr ⟨hc, hc2⟩, ?_⟩
    simp
  · intro a ha b hb ⟨c, hc, hca⟩ ⟨c2, hc2, hc2b⟩
    have hne : meta_pairs_vals membership sep a b ≠ [] := by
      intro hnil
      have : sep_at sep (c, c2) ∈ meta_pairs_vals membership sep a b := by
        apply List.mem_map.mpr
        refine ⟨(c, c2), ?_, rfl⟩
        apply List.mem_filter.mpr
        refine ⟨(mem_pair_range _ (c, c2)).mpr ⟨hc, hc2⟩, ?_⟩
        simp only [Bool.and_eq_true, decide_eq_true_eq]
        exact ⟨hca, hc2b⟩
      rw [hnil] at this
      simp at this
    exact meta_sep_min_spec M membership sep a b hmem ha hb hsep hne

/-- C2 witness: concrete instance with two classes collapsed to one
meta-class. -/
theorem C2_meta_separation_witness :
    ((compute_meta_separation 1 [0, 0] [[1, 2], [3, 4]]).getD 0 []).getD 0 0
      ≤ sep_at [[1, 2], [3, 4]] (0, 1) :=
  (C2_meta_separation 2 1 [0, 0] [[1, 2], [3, 4]] rfl (by decide) (by decide)).1
    0 (by decide) 1 (by decide)

/-- C3 counterexample: the implemented compute_meta_separation does not
force the diagonal to 0: a single class with self-separation 5 collapsed to
a single meta-class keeps diagonal entry 5. -/
theorem C3_diagonal_counterexample :
    ((compute_meta_separation 1 [0] [[5]]).getD 0 []).getD 0 0 = 5
      ∧ ((5 : Int) ≠ 0) := by
  constructor
  · decide
  · decide

/-- C3 amended: the implementation follows variant B: the diagonal entry of
an inhabited meta-class is the minimum of the original separations over its
member pairs, with no forced zero. -/
theorem C3_variant_b (M : Nat) (membership : List Nat) (sep : List (List Int))
    (hmem : ∀ c ∈ membership, c < M)
    (hsep : ∀ p ∈ pair_range membership.length, sep_at sep p ≤ isize_max) :
    ∀ a < M, (∃ c < membership.length, membership.getD c 0 = a) →
      ((compute_meta_separation M membership sep).getD a []).getD a 0
          ∈ meta_pairs_vals membership sep a a
        ∧ ∀ v ∈ meta_pairs_vals membership sep a a,
          ((compute_meta_separation M membership sep).getD a []).getD a 0 ≤ v := by
  intro a ha ⟨c, hc, hca⟩
  have hne : meta_pairs_vals membership sep a a ≠ [] := by
    intro hnil
    have : sep_at sep (c, c) ∈ meta_pairs_vals membership sep a a := by
      apply List.mem_map.mpr
      refine ⟨(c, c), ?_, rfl⟩
      apply List.mem_filter.mpr
      refine ⟨(mem_pair_range _ (c, c)).mpr ⟨hc, hc⟩, ?_⟩
      simp only [Bool.and_eq_true, decide_eq_true_eq]
      exact ⟨hca, hca⟩
    rw [hnil] at this
    simp at this
  exact meta_sep_min_spec M membership sep a a hmem ha ha hsep hne

/-- C3 amended witness: for the one-class instance the diagonal entry is a
member of the (singleton) list of member-pair separations. -/
theorem C3_variant_b_witness :
    ((compute_meta_separation 1 [0] [[5]]).getD 0 []).getD 0 0
      ∈ meta_pairs_vals [0] [[5]] 0 0 :=
  (C3_variant_b 1 [0] [[5]] (by decide) (by decide) 0 (by decide)
    ⟨0, by decide, rfl⟩).1

/- ===== the decision membership map (compression.rs lines 58-67) ===== -/

/-- Modelled from the spec (model.rs is not among the sources):
to_decision((c, r)) = c * R + r; the sentinel is encoded separately
as -1. -/
def to_decision (c r R : Nat) : Int := Int.ofNat (c * R + r)

/-- HashMap::insert on an association list: replace the value of an
existing key, otherwise add the binding. -/
def hm_insert (m : List (Int × Int)) (k v : Int) : List (Int × Int) :=
  match m with
  | [] => [(k, v)]
  | p :: ps => if p.1 = k then (k, v) :: ps else p :: hm_insert ps k v

/-- HashMap::get on an association list. -/
def hm_lookup (m : List (Int × Int)) (k : Int) : Option Int :=
  (m.find? (fun p => decide (p.1 = k))).map (fun p => p.2)

/-- compression.rs lines 58-67: for every class index i of the membership
vector and every runway r, insert problem.to_decision(i, r) mapping to
meta_problem.to_decision(membership[i], r) (both problems share the runway
count), then insert the sentinel mapping -1 to -1. -/
def build_decision_membership (membership : List Nat) (R : Nat) : List (Int × Int) :=
  hm_insert
    ((List.range membership.length).foldl
      (fun m i => (List.range R).foldl
        (fun m r => hm_insert m (to_decision i r R) (to_decision (membership.getD i 0) r R)) m)
      [])
    (-1) (-1)

theorem hm_lookup_insert_self (m : List (Int × Int)) (k v : Int) :
    hm_lookup (hm_insert m k v) k = some v := by
  induction m with
  | nil => simp [hm_insert, hm_lookup]
  | cons p ps ih =>
    by_cases h : p.1 = k
    · simp only [hm_insert, if_pos h, hm_lookup]
      rw [List.find?_cons_of_pos _ (by simp)]
      rfl
    · simp only [hm_insert, if_neg h, hm_lookup]
      rw [List.find?_cons_of_neg _ (by simp [h])]
      exact ih

theorem hm_lookup_insert_other (m : List (Int × Int)) (k v k2 : Int) (h : k ≠ k2) :
    hm_lookup (hm_insert m k v) k2 = hm_lookup m k2 := by
  induction m with
  | nil =>
    simp only [hm_insert, hm_lookup]
    rw [List.find?_cons_of_neg _ (by simp [h])]
  | cons p ps ih =>
    by_cases hp : p.1 = k
    · have hkey : p.1 ≠ k2 := by rw [hp]; exact h
      simp only [hm_insert, if_pos hp, hm_lookup]
      rw [List.find?_cons_of_neg _ (by simp [h]),
        List.find?_cons_of_neg _ (by simp [hkey])]
    · simp only [hm_insert, if_neg hp, hm_lookup]
      by_cases hp2 : p.1 = k2
      · rw [List.find?_cons_of_pos _ (by simp [hp2]),
          List.find?_cons_of_pos _ (by simp [hp2])]
      · rw [List.find?_cons_of_neg _ (by simp [hp2]),
          List.find?_cons_of_neg _ (by simp [hp2])]
        exact ih

/-- After folding HashMap inserts over a key-value list, a lookup returns
the value of the last binding for the key, falling back to the initial map. -/
theorem fold_insert_lookup :
    ∀ (kvs : List (Int × Int)) (m : List (Int × Int)) (k : Int),
    hm_lookup (kvs.foldl (fun m p => hm_insert m p.1 p.2) m) k
      = match kvs.reverse.find? (fun p => decide (p.1 = k)) with
        | some p => some p.2
        | none => hm_lookup m k := by
  intro kvs
  induction kvs with
  | nil => intro m k; rfl
  | cons p kvs ih =>
    intro m k
    simp only [List.foldl_cons, List.reverse_cons, List.find?_append]
    rw [ih (hm_insert m p.1 p.2) k]
    rcases h : kvs.reverse.find? (fun q => decide (q.1 = k)) with _ | q
    · rw [h]
      simp only [Option.none_or]
      by_cases hp : p.1 = k
      · subst hp
        rw [List.find?_cons_of_pos _ (by simp)]
        simpa using hm_lookup_insert_self m p.1 p.2
      · rw [List.find?_cons_of_neg _ (by simp [hp]), List.find?_nil]
        simpa using hm_lookup_insert_other m p.1 p.2 k hp
    · rw [h]
      simp [Option.or]

/-- The iteration sequence of the two nested loops over class indices and
runways. -/
def rect_range (K R : Nat) : List (Nat × Nat) :=
  (List.range K).flatMap (fun i => (List.range R).map (fun j => (i, j)))

theorem mem_rect_range (K R : Nat) (p : Nat × Nat) :
    p ∈ rect_range K R ↔ p.1 < K ∧ p.2 < R := by
  cases p with
  | mk i j =>
    simp only [rect_range, List.mem_flatMap, List.mem_map, List.mem_range]
    constructor
    · rintro ⟨a, ha, b, hb, he⟩
      cases he; exact ⟨ha, hb⟩
    · rintro ⟨hi, hj⟩
      exact ⟨i, hi, j, hj, rfl⟩

/-- A doubly nested foldl is the foldl over the list of index pairs. -/
theorem foldl_nested_pairs {M A B : Type} (f : M → A → B → M)
    (l1 : List A) (l2 : List B) :
    ∀ init : M,
    l1.foldl (fun m a => l2.foldl (fun m b => f m a b) m) init
      = (l1.flatMap (fun a => l2.map (fun b => (a, b)))).foldl (fun m p => f m p.1 p.2) init := by
  induction l1 with
  | nil => intro init; rfl
  | cons a l1 ih =>
    intro init
    simp only [List.foldl_cons, List.flatMap_cons, List.foldl_append, List.foldl_map]
    exact ih _

theorem to_decision_inj (c r c2 r2 R : Nat) (hr : r < R) (hr2 : r2 < R)
    (h : to_decision c r R = to_decision c2 r2 R) : c = c2 ∧ r = r2 := by
  unfold to_decision at h
  have hn : c * R + r = c2 * R + r2 := Int.ofNat.inj h
  have hR : 0 < R := Nat.lt_of_le_of_lt (Nat.zero_le r) hr
  have hdiv : ∀ x y : Nat, y < R → (x * R + y) / R = x := by
    intro x y hy
    rw [Nat.mul_comm, Nat.mul_add_div hR, Nat.div_eq_of_lt hy, Nat.add_zero]
  have hmod : ∀ x y : Nat, y < R → (x * R + y) % R = y := by
    intro x y hy
    rw [Nat.mul_comm, Nat.mul_add_mod, Nat.mod_eq_of_lt hy]
  constructor
  · rw [← hdiv c r hr, ← hdiv c2 r2 hr2, hn]
  · rw [← hmod c r hr, ← hmod c2 r2 hr2, hn]

/-- The key-value bindings inserted by the nested loops. -/
def decision_kvs (membership : List Nat) (R : Nat) : List (Int × Int) :=
  (rect_range membership.length R).map
    (fun p => (to_decision p.1 p.2 R, to_decision (membership.getD p.1 0) p.2 R))

theorem build_decision_membership_eq (membership : List Nat) (R : Nat) :
    build_decision_membership membership R
      = hm_insert ((decision_kvs membership R).foldl
          (fun m p => hm_insert m p.1 p.2) []) (-1) (-1) := by
  unfold build_decision_membership decision_kvs rect_range
  rw [foldl_nested_pairs
    (fun m i r => hm_insert m (to_decision i r R) (to_decision (membership.getD i 0) r R))
    (List.range membership.length) (List.range R) []]
  rw [List.foldl_map]

/-- C8: the decision membership map sends every encoded decision c*R+r with
c an original class and r a runway to membership(c)*R+r, sends the sentinel
-1 to -1, and is defined on exactly these keys. -/
theorem C8_decision_membership (membership : List Nat) (R : Nat) :
    (∀ c r : Nat, c < membership.length → r < R →
      hm_lookup (build_decision_membership membership R) (to_decision c r R)
        = some (to_decision (membership.getD c 0) r R))
    ∧ hm_lookup (build_decision_membership membership R) (-1) = some (-1)
    ∧ (∀ d : Int, hm_lookup (build_decision_membership membership R) d ≠ none →
        d = -1 ∨ ∃ c r : Nat, c < membership.length ∧ r < R ∧ d = to_decision c r R) := by
  refine ⟨?_, ?_, ?_⟩
  · intro c r hc hr
    rw [build_decision_membership_eq]
    have hne : (-1 : Int) ≠ to_decision c r R := by
      intro he
      have h0 : (0 : Int) ≤ to_decision c r R := Int.ofNat_nonneg _
      rw [← he] at h0
      norm_num at h0
    rw [hm_lookup_insert_other _ _ _ _ hne]
    rw [fold_insert_lookup]
    rcases hfind : (decision_kvs membership R).reverse.find?
        (fun p => decide (p.1 = to_decision c r R)) with _ | q
    · exfalso
      have hmem : (to_decision c r R, to_decision (membership.getD c 0) r R)
          ∈ (decision_kvs membership R).reverse := by
        rw [List.mem_reverse]
        exact List.mem_map.mpr ⟨(c, r), (mem_rect_range _ _ (c, r)).mpr ⟨hc, hr⟩, rfl⟩
      have := List.find?_eq_none.mp hfind _ hmem
      simp at this
    · rw [hfind]
      have hq1 : q.1 = to_decision c r R := by
        have := List.find?_some hfind
        simpa using this
      have hqmem : q ∈ decision_kvs membership R :=
        List.mem_reverse.mp (List.mem_of_find?_eq_some hfind)
      rcases List.mem_map.mp hqmem with ⟨p, hp, hpe⟩
      rcases (mem_rect_range _ _ p).mp hp with ⟨hp1, hp2⟩
      have hk : to_decision p.1 p.2 R = to_decision c r R := by
        rw [← hq1, ← hpe]
      rcases to_decision_inj p.1 p.2 c r R hp2 hr hk with ⟨he1, he2⟩
      have hq2 : q.2 = to_decision (membership.getD c 0) r R := by
        rw [← hpe]
        simp only []
        rw [he1, he2]
      exact congrArg some hq2
  · rw [build_decision_membership_eq]
    exact hm_lookup_insert_self _ _ _
  · intro d hd
    by_cases hneg : d = -1
    · exact Or.inl hneg
    · refine Or.inr ?_
      rw [build_decision_membership_eq,
        hm_lookup_insert_other _ _ _ _ (fun h => hneg h.symm),
        fold_insert_lookup] at hd
      rcases hfind : (decision_kvs membership R).reverse.find?
          (fun p => decide (p.1 = d)) with _ | q
      · rw [hfind] at hd
        simp [hm_lookup] at hd
      · have hq1 : q.1 = d := by
          have := List.find?_some hfind
          simpa using this
        have hqmem : q ∈ decision_kvs membership R :=
          List.mem_reverse.mp (List.mem_of_find?_eq_some hfind)
        rcases List.mem_map.mp hqmem with ⟨p, hp, hpe⟩
        rcases (mem_rect_range _ _ p).mp hp with ⟨hp1, hp2⟩
        refine ⟨p.1, p.2, hp1, hp2, ?_⟩
        rw [← hq1, ← hpe]

/-- C8 witness: with membership [1, 0] and two runways, decision 1*2+0 maps
to 0*2+0. -/
theorem C8_decision_membership_witness :
    hm_lookup (build_decision_membership [1, 0] 2) (to_decision 1 0 2)
      = some (to_decision 0 0 2) :=
  (C8_decision_membership [1, 0] 2).1 1 0 (by decide) (by decide)

/- ===== state compression (compression.rs lines 147-193) ===== -/

/-- A key of the reachable-meta-state dictionary: (rem, prev_classes). -/
abbrev MetaKey : Type := List Nat × List Int

/-- An entry stored under a key: (sum of prev_times, prev_times). -/
abbrev MetaEntry : Type := Int × List Int

/-- HashMap::get on the dictionary, embedded as an association list whose
value lists hold the BTreeSet contents in strictly increasing pairLt
order. -/
def lookup_states (states : List (MetaKey × List MetaEntry)) (k : MetaKey) :
    Option (List MetaEntry) :=
  (states.find? (fun p => decide (p.1 = k))).map (fun p => p.2)

/-- compression.rs lines 148-151: rem of the compressed state, built by
adding each entry of state.rem into the cell of its meta-class. -/
def compress_rem (M : Nat) (membership : List Nat) (srem : List Nat) : List Nat :=
  (List.range srem.length).foldl
    (fun acc c => acc.set (membership.getD c 0)
      (acc.getD (membership.getD c 0) 0 + srem.getD c 0))
    (List.replicate M 0)

/-- compression.rs lines 157-166: per-runway previous classes mapped
through class_membership, -1 kept as -1. -/
def compress_prev_classes (membership : List Nat) (info : List RunwayState) : List Int :=
  info.map (fun rs =>
    if rs.prev_class = -1 then (-1 : Int)
    else Int.ofNat (membership.getD rs.prev_class.toNat 0))

/-- The dictionary key formed in compress: (rem, prev_classes). -/
def compress_key (M : Nat) (membership : List Nat) (s : AlpState) : MetaKey :=
  (compress_rem M membership s.rem, compress_prev_classes membership s.info)

/-- The query entry formed in compress: (sum of prev_times, prev_times). -/
def compress_query (s : AlpState) : MetaEntry :=
  ((s.info.map (fun rs => rs.prev_time)).sum, s.info.map (fun rs => rs.prev_time))

/-- compression.rs lines 174-180: an entry of precomputed times dominates
the state when no runway has state.info[r].prev_time < precomputed_times[r]. -/
def dominated_check (R : Nat) (info : List RunwayState) (times : List Int) : Bool :=
  (List.range R).all (fun r => ! decide ((info.getD r default).prev_time < times.getD r 0))

/-- compression.rs lines 147-193: compress an original state.  The BTreeSet
range query (Unbounded, Included (sum, prev_times)) on the sorted entry list
is its filter by pairLe, and .rev() with first-match is find? on the
reverse; the first entry dominated by the state is materialized into a
meta-state, and a state with empty info is the sentinel. -/
def compress (M R : Nat) (membership : List Nat)
    (states : List (MetaKey × List MetaEntry)) (s : AlpState) : AlpState :=
  match lookup_states states (compress_key M membership s) with
  | some infos =>
    match ((infos.filter (fun e => pairLe e (compress_query s))).reverse).find?
        (fun e => dominated_check R s.info e.2) with
    | some e => AlpState.mk (compress_key M membership s).1
        ((List.range R).map (fun r =>
          RunwayState.mk (e.2.getD r 0) ((compress_key M membership s).2.getD r 0)))
    | none => AlpState.mk (compress_key M membership s).1 []
  | none => AlpState.mk (compress_key M membership s).1 []

theorem pairLe_refl (x : MetaEntry) : pairLe x x = true := by
  simp [pairLe]

theorem pairLe_of_pairLt {x y : MetaEntry} (h : pairLt x y = true) : pairLe x y = true := by
  simp [pairLe, h]

/-- In a strictly sorted list scanned from its largest element downwards,
the first element satisfying a predicate is the greatest one satisfying
it. -/
theorem find_desc_some (P : MetaEntry → Bool) :
    ∀ (l : List MetaEntry), l.Pairwise (fun a b => pairLt a b = true) →
    ∀ e : MetaEntry, l.reverse.find? P = some e →
      e ∈ l ∧ P e = true ∧ ∀ x ∈ l, P x = true → pairLe x e = true := by
  intro l
  induction l with
  | nil => intro _ e hf; simp at hf
  | cons a t ih =>
    intro hs e hf
    rcases List.pairwise_cons.mp hs with ⟨ha, ht⟩
    rw [List.reverse_cons, List.find?_append] at hf
    rcases h0 : t.reverse.find? P with _ | e0
    · rw [h0, Option.none_or] at hf
      by_cases hPa : P a = true
      · rw [List.find?_cons_of_pos _ hPa] at hf
        have hea : a = e := by simpa using hf
        subst hea
        refine ⟨List.mem_cons_self a t, hPa, ?_⟩
        intro x hx hPx
        rcases List.mem_cons.mp hx with hxa | hxt
        · subst hxa; exact pairLe_refl x
        · exfalso
          have := List.find?_eq_none.mp h0 x (List.mem_reverse.mpr hxt)
          exact this hPx
      · rw [List.find?_cons_of_neg _ hPa, List.find?_nil] at hf
        simp at hf
    · rw [h0] at hf
      have he0 : e0 = e := by
        simpa [Option.or] using hf
      subst he0
      rcases ih ht e0 h0 with ⟨hmem, hP, hmax⟩
      refine ⟨List.mem_cons_of_mem a hmem, hP, ?_⟩
      intro x hx hPx
      rcases List.mem_cons.mp hx with hxa | hxt
      · subst hxa; exact pairLe_of_pairLt (ha _ hmem)
      · exact hmax x hxt hPx

theorem getD_map_lt {α β : Type} (f : α → β) :
    ∀ (l : List α) (r : Nat) (d : β) (d2 : α), r < l.length →
      (l.map f).getD r d = f (l.getD r d2) := by
  intro l
  induction l with
  | nil => intro r d d2 h; simp at h
  | cons x xs ih =>
    intro r d d2 h
    cases r with
    | zero => rfl
    | succ n => simpa using ih n d d2 (by simpa using h)

theorem fold_set_length {α β : Type} (g : β → Nat) (upd : α → β → α) (d : α) :
    ∀ (cs : List β) (acc : List α),
      (cs.foldl (fun m c => m.set (g c) (upd (m.getD (g c) d) c)) acc).length
        = acc.length := by
  intro cs
  induction cs with
  | nil => intro acc; rfl
  | cons c cs ih =>
    intro acc
    rw [List.foldl_cons, ih, List.length_set]

theorem foldl_add_eq_sum (v : Nat → Nat) :
    ∀ (l : List Nat) (init : Nat),
      l.foldl (fun a c => a + v c) init = init + (l.map v).sum := by
  intro l
  induction l with
  | nil => intro init; simp
  | cons c cs ih =>
    intro init
    rw [List.foldl_cons, ih, List.map_cons, List.sum_cons]
    omega

theorem compress_rem_length (M : Nat) (membership : List Nat) (srem : List Nat) :
    (compress_rem M membership srem).length = M := by
  have h := fold_set_length (fun c => membership.getD c 0)
    (fun a c => a + srem.getD c 0) 0 (List.range srem.length) (List.replicate M (0 : Nat))
  exact h.trans (by rw [List.length_replicate])

theorem compress_rem_spec (M : Nat) (membership : List Nat) (srem : List Nat)
    (hmem : ∀ c ∈ membership, c < M) (hlen : srem.length ≤ membership.length) :
    ∀ a, a < M →
      (compress_rem M membership srem).getD a 0
        = (((List.range srem.length).filter
            (fun c => decide (membership.getD c 0 = a))).map (fun c => srem.getD c 0)).sum := by
  intro a ha
  have hb : ∀ c ∈ List.range srem.length,
      (fun c => membership.getD c 0) c < (List.replicate M (0 : Nat)).length := by
    intro c hc
    rw [List.length_replicate]
    exact hmem _ (getD_mem_of_lt membership c 0 (lt_of_lt_of_le (List.mem_range.mp hc) hlen))
  have h := fold_set_getD (fun c => membership.getD c 0)
    (fun acc c => acc + srem.getD c 0) 0
    (List.range srem.length) (List.replicate M 0) a hb
  rw [foldl_add_eq_sum (fun c => srem.getD c 0),
    getD_replicate_of_lt M a 0 0 ha, Nat.zero_add] at h
  exact h

/-- C1: compress builds the grouped rem and mapped prev_classes, then
either returns the sentinel (empty info) exactly when no dictionary entry
at most (sum, prev_times) dominates the state, or returns the greatest
entry at most (sum, prev_times) in (sum, prev_times) order whose
precomputed times are dominated by the state; that entry is stored in the
dictionary under the key as (sum of its times, its times). -/
theorem C1_compress (M R : Nat) (membership : List Nat)
    (states : List (MetaKey × List MetaEntry)) (s : AlpState)
    (hinfo : s.info.length = R)
    (hremlen : s.rem.length ≤ membership.length)
    (hmem : ∀ c ∈ membership, c < M)
    (hwf : ∀ p ∈ states, p.2.Pairwise (fun a b => pairLt a b = true)
      ∧ ∀ e ∈ p.2, e.1 = e.2.sum ∧ e.2.length = R) :
    ((compress M R membership states s).rem.length = M
      ∧ ∀ a, a < M → (compress M R membership states s).rem.getD a 0
        = (((List.range s.rem.length).filter
            (fun c => decide (membership.getD c 0 = a))).map (fun c => s.rem.getD c 0)).sum)
    ∧ (((compress M R membership states s).info = []
        ∧ ∀ e ∈ (lookup_states states (compress_key M membership s)).getD [],
            pairLe e (compress_query s) = true → dominated_check R s.info e.2 = false)
      ∨ (∃ e ∈ (lookup_states states (compress_key M membership s)).getD [],
          pairLe e (compress_query s) = true
          ∧ dominated_check R s.info e.2 = true
          ∧ e.1 = e.2.sum
          ∧ (e.2.sum, e.2) ∈ (lookup_states states (compress_key M membership s)).getD []
          ∧ (∀ r, r < R → e.2.getD r 0 ≤ (s.info.getD r default).prev_time)
          ∧ (∀ x ∈ (lookup_states states (compress_key M membership s)).getD [],
              pairLe x (compress_query s) = true →
              dominated_check R s.info x.2 = true → pairLe x e = true)
          ∧ (compress M R membership states s).info
              = (List.range R).map (fun r =>
                  RunwayState.mk (e.2.getD r 0)
                    ((compress_prev_classes membership s.info).getD r 0))))
    ∧ (∀ r, r < R → (compress_prev_classes membership s.info).getD r 0
        = (if (s.info.getD r default).prev_class = -1 then (-1 : Int)
           else Int.ofNat (membership.getD (s.info.getD r default).prev_class.toNat 0))) := by
  have hrem_every : (compress M R membership states s).rem = compress_rem M membership s.rem := by
    unfold compress
    split
    · split
      · rfl
      · rfl
    · rfl
  refine ⟨?_, ?_, ?_⟩
  · rw [hrem_every]
    exact ⟨compress_rem_length M membership s.rem,
      compress_rem_spec M membership s.rem hmem hremlen⟩
  · rcases hlk : lookup_states states (compress_key M membership s) with _ | infos
    · left
      constructor
      · simp only [compress, hlk]
      · intro e he
        simp at he
    · have hpair : ((compress_key M membership s), infos) ∈ states ∨ True := Or.inr trivial
      have hfound := hlk
      unfold lookup_states at hfound
      rcases hfp : states.find? (fun p => decide (p.1 = compress_key M membership s)) with _ | p
      · rw [hfp] at hfound; simp at hfound
      · rw [hfp] at hfound
        simp at hfound
        have hp2 : p.2 = infos := hfound
        have hpmem : p ∈ states := List.mem_of_find?_eq_some hfp
        rcases hwf p hpmem with ⟨hsorted, hentries⟩
        rw [hp2] at hsorted hentries
        rcases hfind : ((infos.filter (fun e => pairLe e (compress_query s))).reverse).find?
            (fun e => dominated_check R s.info e.2) with _ | e
        · left
          constructor
          · simp only [compress, hlk, hfind]
          · intro e he hle
            have hmemf : e ∈ (infos.filter (fun e => pairLe e (compress_query s))).reverse :=
              List.mem_reverse.mpr (List.mem_filter.mpr ⟨by simpa using he, hle⟩)
            have := List.find?_eq_none.mp hfind e hmemf
            simpa using this
        · right
          have hsorted2 : (infos.filter (fun e => pairLe e (compress_query s))).Pairwise
              (fun a b => pairLt a b = true) := hsorted.filter _
          rcases find_desc_some (fun e => dominated_check R s.info e.2) _ hsorted2 e hfind
            with ⟨hmemf, hdom, hmax⟩
          rcases List.mem_filter.mp hmemf with ⟨hmemi, hle⟩
          have hent := hentries e hmemi
          refine ⟨e, by simpa using hmemi, hle, hdom, hent.1, ?_, ?_, ?_, ?_⟩
          · have hee : (e.2.sum, e.2) = e := by
              cases e with
              | mk e1 e2 =>
                simp only [Prod.mk.injEq]
                exact ⟨hent.1.symm, trivial⟩
            rw [hee]
            simpa using hmemi
          · intro r hr
            have hall := List.all_eq_true.mp hdom r (List.mem_range.mpr hr)
            have hnlt : ¬ ((s.info.getD r default).prev_time < e.2.getD r 0) := by
              simpa using hall
            omega
          · intro x hx hxle hxdom
            simp at hx
            exact hmax x (List.mem_filter.mpr ⟨hx, hxle⟩) hxdom
          · simp only [compress, hlk, hfind]
            simp [compress_key]
  · intro r hr
    unfold compress_prev_classes
    rw [getD_map_lt _ s.info r _ default (by omega)]

/-- C1 witness: a one-runway, one-meta-class dictionary where the query
(6, [6]) skips the too-large entry (7, [7]) and returns (5, [5]). -/
theorem C1_compress_witness :
    (compress 1 1 [0] [(([1], [0]), [(5, [5]), (7, [7])])] (AlpState.mk [1] [⟨6, 0⟩])).rem.length
      = 1 :=
  (C1_compress 1 1 [0] [(([1], [0]), [(5, [5]), (7, [7])])] (AlpState.mk [1] [⟨6, 0⟩])
    rfl (by decide) (by decide) (by decide)).1.1

/- ===== the problem model, modelled from the spec (module resolution/model
is not among the provided sources) ===== -/

/-- Modelled from the spec, section 4.1: next[c] lists the aircraft of
class c in reverse index order, so that next[c][rem[c] - 1] is the
lowest-index remaining aircraft of class c. -/
def alp_next (inst : AlpInstance) : List (List Nat) :=
  (List.range inst.nb_classes).map
    (fun c => ((List.range inst.nb_aircrafts).filter
      (fun i => decide (inst.classes.getD i 0 = c))).reverse)

/-- Modelled from the spec, section 3: the initial state carries the
per-class aircraft counts and all runways empty (prev_time and prev_class
both -1). -/
def initial_state (inst : AlpInstance) : AlpState :=
  AlpState.mk
    ((List.range inst.nb_classes).map
      (fun c => ((List.range inst.nb_aircrafts).filter
        (fun i => decide (inst.classes.getD i 0 = c))).length))
    (List.replicate inst.nb_runways (RunwayState.mk (-1) (-1)))

/-- Modelled from the spec, section 4.1: arrival(a, r) = max(target[a],
earliest(a, r)) where earliest adds the separation to the previous arrival
time when the runway is non-empty and is target[a] otherwise. -/
def get_arrival_time (inst : AlpInstance) (info : List RunwayState)
    (aircraft runway : Nat) : Int :=
  let rs := info.getD runway default
  let tgt := inst.target.getD aircraft 0
  if rs.prev_class = -1 then tgt
  else max tgt (rs.prev_time
    + (inst.separation.getD rs.prev_class.toNat []).getD (inst.classes.getD aircraft 0) 0)

/-- Modelled from the spec, section 4.1: from_decision(d) = (d / R, d mod R). -/
def from_decision (d : Int) (R : Nat) : Nat × Nat :=
  ((d / (R : Int)).toNat, (d % (R : Int)).toNat)

/-- The aircraft scheduled next for class c in a state: next[c][rem[c] - 1]. -/
def next_aircraft (inst : AlpInstance) (s : AlpState) (c : Nat) : Nat :=
  ((alp_next inst).getD c []).getD (s.rem.getD c 0 - 1) 0

/-- Modelled from the spec, section 4.1: the feasible decisions (c, r) of a
state: rem[c] > 0 and the arrival time of the next aircraft of class c on
runway r meets its latest deadline. -/
def domain_decisions (inst : AlpInstance) (s : AlpState) : List Int :=
  (List.range inst.nb_classes).flatMap (fun c =>
    if s.rem.getD c 0 > 0 then
      (List.range inst.nb_runways).filterMap (fun r =>
        if get_arrival_time inst s.info (next_aircraft inst s c) r
            ≤ inst.latest.getD (next_aircraft inst s c) 0
        then some (to_decision c r inst.nb_runways) else none)
    else [])

/-- Modelled from the spec, section 4.1: emit the feasible decisions, or
the sentinel -1 when none exists and the state is not terminal. -/
def for_each_in_domain (inst : AlpInstance) (s : AlpState) : List Int :=
  let ds := domain_decisions inst s
  if ds.isEmpty = true ∧ s.rem.sum ≠ 0 then [-1] else ds

/-- Modelled from the spec, section 4.1: a decision (c, r) decrements
rem[c] and updates runway r with the arrival time and class of the
scheduled aircraft.  On the sentinel the spec only makes the branch
unsatisfiable through its -infinity cost; the state is kept unchanged. -/
def transition (inst : AlpInstance) (s : AlpState) (d : Int) : AlpState :=
  if d = -1 then s
  else
    let c := (from_decision d inst.nb_runways).1
    let r := (from_decision d inst.nb_runways).2
    let a := next_aircraft inst s c
    let t := get_arrival_time inst s.info a r
    AlpState.mk (s.rem.set c (s.rem.getD c 0 - 1))
      (s.info.set r (RunwayState.mk t (Int.ofNat (inst.classes.getD a 0))))

/- ===== the reachable meta-state dictionary (compression.rs lines
96-137) ===== -/

/-- compression.rs lines 108-117: the key a visited state is stored under:
(rem, per-runway prev_class). -/
def state_key (s : AlpState) : MetaKey :=
  (s.rem, s.info.map (fun rs => rs.prev_class))

/-- compression.rs lines 108-117: the entry a visited state contributes:
(sum of prev_times, per-runway prev_time). -/
def state_entry (s : AlpState) : MetaEntry :=
  ((s.info.map (fun rs => rs.prev_time)).sum, s.info.map (fun rs => rs.prev_time))

/-- BTreeSet::insert on a sorted entry list. -/
def insert_entry : List MetaEntry → MetaEntry → List MetaEntry
  | [], e => [e]
  | x :: xs, e =>
    if pairLt e x = true then e :: x :: xs
    else if e = x then x :: xs
    else x :: insert_entry xs e

/-- compression.rs lines 118-127: insert an entry into the set stored under
a key of the dictionary, creating the set when the key is vacant. -/
def map_insert (m : List (MetaKey × List MetaEntry)) (k : MetaKey) (e : MetaEntry) :
    List (MetaKey × List MetaEntry) :=
  match m with
  | [] => [(k, [e])]
  | p :: ps => if p.1 = k then (p.1, insert_entry p.2 e) :: ps else p :: map_insert ps k e

/-- compression.rs lines 106-130: record every state of a layer into the
dictionary. -/
def record_layer (m : List (MetaKey × List MetaEntry)) (states : List AlpState) :
    List (MetaKey × List MetaEntry) :=
  states.foldl (fun m s => map_insert m (state_key s) (state_entry s)) m

/-- compression.rs line 129: the successor layer, collected into a HashSet
(embedded as a deduplicated list). -/
def next_layer (inst : AlpInstance) (states : List AlpState) : List AlpState :=
  (states.flatMap (fun s => (for_each_in_domain inst s).map (transition inst s))).dedup

/-- compression.rs lines 99-134: the layered loop; next_variable(depth,
...) is some exactly while depth < nb_aircrafts, so starting from depth 0
the loop records the layers at depths 0 .. nb_aircrafts - 1. -/
def compute_meta_states_loop (inst : AlpInstance) :
    Nat → List AlpState → List (MetaKey × List MetaEntry) → List (MetaKey × List MetaEntry)
  | 0, _, m => m
  | n + 1, states, m =>
    compute_meta_states_loop inst n (next_layer inst states) (record_layer m states)

/-- compression.rs lines 96-137: enumerate the meta-states layer by layer
from the initial state and record them in the dictionary. -/
def compute_meta_states (inst : AlpInstance) : List (MetaKey × List MetaEntry) :=
  compute_meta_states_loop inst inst.nb_aircrafts [initial_state inst] []

/-- A state reachable from the initial state by d in-domain transitions. -/
inductive ReachableAt (inst : AlpInstance) : Nat → AlpState → Prop where
  | init : ReachableAt inst 0 (initial_state inst)
  | step (d : Nat) (s : AlpState) (dec : Int) (hs : ReachableAt inst d s)
      (hdec : dec ∈ for_each_in_domain inst s) :
      ReachableAt inst (d + 1) (transition inst s dec)

theorem mem_insert_entry :
    ∀ (es : List MetaEntry) (e e2 : MetaEntry), e2 ∈ insert_entry es e → e2 = e ∨ e2 ∈ es := by
  intro es
  induction es with
  | nil =>
    intro e e2 h
    simp [insert_entry] at h
    exact Or.inl h
  | cons x xs ih =>
    intro e e2 h
    unfold insert_entry at h
    by_cases h1 : pairLt e x = true
    · rw [if_pos h1] at h
      rcases List.mem_cons.mp h with h2 | h2
      · exact Or.inl h2
      · exact Or.inr h2
    · rw [if_neg h1] at h
      by_cases h2 : e = x
      · rw [if_pos h2] at h
        exact Or.inr h
      · rw [if_neg h2] at h
        rcases List.mem_cons.mp h with h3 | h3
        · exact Or.inr (h3 ▸ List.mem_cons_self x xs)
        · rcases ih e e2 h3 with h4 | h4
          · exact Or.inl h4
          · exact Or.inr (List.mem_cons_of_mem x h4)

theorem map_insert_mem (Q : MetaKey → MetaEntry → Prop) :
    ∀ (m : List (MetaKey × List MetaEntry)) (k : MetaKey) (e : MetaEntry),
    (∀ k2 es e2, (k2, es) ∈ m → e2 ∈ es → Q k2 e2) → Q k e →
    ∀ k2 es e2, (k2, es) ∈ map_insert m k e → e2 ∈ es → Q k2 e2 := by
  intro m
  induction m with
  | nil =>
    intro k e _ hq k2 es e2 hmem he2
    simp [map_insert] at hmem
    rcases hmem with ⟨hk, hes⟩
    subst hk
    rw [hes] at he2
    simp at he2
    rw [he2]
    exact hq
  | cons p ps ih =>
    intro k e hm hq k2 es e2 hmem he2
    unfold map_insert at hmem
    by_cases hp : p.1 = k
    · rw [if_pos hp] at hmem
      rcases List.mem_cons.mp hmem with h1 | h1
      · have hk2 : k2 = p.1 := congrArg Prod.fst h1
        have hes : es = insert_entry p.2 e := congrArg Prod.snd h1
        rw [hes] at he2
        rcases mem_insert_entry p.2 e e2 he2 with h2 | h2
        · rw [h2, hk2, hp]
          exact hq
        · exact hm k2 p.2 e2 (by rw [hk2]; exact List.mem_cons_self p ps) h2
      · exact hm k2 es e2 (List.mem_cons_of_mem p h1) he2
    · rw [if_neg hp] at hmem
      rcases List.mem_cons.mp hmem with h1 | h1
      · exact hm k2 es e2 (by rw [h1]; exact List.mem_cons_self p ps) he2
      · exact ih k e (fun k3 es3 e3 hmem3 he3 => hm k3 es3 e3 (List.mem_cons_of_mem p hmem3) he3)
          hq k2 es e2 h1 he2

theorem record_layer_mem (Q : MetaKey → MetaEntry → Prop) :
    ∀ (states : List AlpState) (m : List (MetaKey × List MetaEntry)),
    (∀ k es e, (k, es) ∈ m → e ∈ es → Q k e) →
    (∀ s ∈ states, Q (state_key s) (state_entry s)) →
    ∀ k es e, (k, es) ∈ record_layer m states → e ∈ es → Q k e := by
  intro states
  induction states with
  | nil => intro m hm _ k es e hmem he; exact hm k es e hmem he
  | cons s states ih =>
    intro m hm hq k es e hmem he
    unfold record_layer at hmem
    rw [List.foldl_cons] at hmem
    exact ih (map_insert m (state_key s) (state_entry s))
      (map_insert_mem Q m (state_key s) (state_entry s) hm
        (hq s (List.mem_cons_self s states)))
      (fun s2 hs2 => hq s2 (List.mem_cons_of_mem s hs2))
      k es e hmem he

theorem next_layer_reach (inst : AlpInstance) (d : Nat) (states : List AlpState)
    (h : ∀ s ∈ states, ReachableAt inst d s) :
    ∀ s2 ∈ next_layer inst states, ReachableAt inst (d + 1) s2 := by
  intro s2 hs2
  unfold next_layer at hs2
  rcases List.mem_flatMap.mp (List.mem_dedup.mp hs2) with ⟨s, hs, hmem⟩
  rcases List.mem_map.mp hmem with ⟨dec, hdec, heq⟩
  rw [← heq]
  exact ReachableAt.step d s dec (h s hs) hdec

theorem loop_invariant (inst : AlpInstance) :
    ∀ (n d0 : Nat) (states : List AlpState) (m : List (MetaKey × List MetaEntry)),
    (∀ s ∈ states, ReachableAt inst d0 s) →
    (∀ k es e, (k, es) ∈ m → e ∈ es →
      ∃ d s, d < d0 + n ∧ ReachableAt inst d s ∧ state_key s = k ∧ state_entry s = e) →
    ∀ k es e, (k, es) ∈ compute_meta_states_loop inst n states m → e ∈ es →
      ∃ d s, d < d0 + n ∧ ReachableAt inst d s ∧ state_key s = k ∧ state_entry s = e := by
  intro n
  induction n with
  | zero =>
    intro d0 states m _ hm k es e hmem he
    exact hm k es e hmem he
  | succ n ih =>
    intro d0 states m hstates hm k es e hmem he
    unfold compute_meta_states_loop at hmem
    have harith : d0 + 1 + n = d0 + (n + 1) := by omega
    have hres := ih (d0 + 1) (next_layer inst states) (record_layer m states)
      (next_layer_reach inst d0 states hstates)
      (record_layer_mem
        (fun k2 e2 => ∃ d s, d < d0 + 1 + n ∧ ReachableAt inst d s
          ∧ state_key s = k2 ∧ state_entry s = e2)
        states m
        (fun k2 es2 e2 hmem2 he2 => by
          rcases hm k2 es2 e2 hmem2 he2 with ⟨d, s, hd, hr, hk, hent⟩
          exact ⟨d, s, by omega, hr, hk, hent⟩)
        (fun s hs => ⟨d0, s, by omega, hstates s hs, rfl, rfl⟩))
      k es e hmem he
    rcases hres with ⟨d, s, hd, hr, hk, hent⟩
    exact ⟨d, s, by omega, hr, hk, hent⟩

theorem reachable_info_length (inst : AlpInstance) :
    ∀ (d : Nat) (s : AlpState), ReachableAt inst d s → s.info.length = inst.nb_runways := by
  intro d s h
  induction h with
  | init =>
    unfold initial_state
    exact List.length_replicate ..
  | step d2 s2 dec _ _ ih =>
    unfold transition
    by_cases hdec : dec = -1
    · rw [if_pos hdec]
      exact ih
    · rw [if_neg hdec]
      simpa [List.length_set] using ih

/-- C9: every entry stored by compute_meta_states has its sum equal to the
sum of its prev_times, its vectors of the runway-count length, and comes
from a meta-state reachable from the meta-initial state by in-domain
transitions at depth < nb_aircrafts. -/
theorem C9_meta_states (inst : AlpInstance) (k : MetaKey) (es : List MetaEntry)
    (e : MetaEntry)
    (hk : (k, es) ∈ compute_meta_states inst) (he : e ∈ es) :
    e.1 = e.2.sum
    ∧ e.2.length = inst.nb_runways
    ∧ k.2.length = inst.nb_runways
    ∧ ∃ d s, d < inst.nb_aircrafts ∧ ReachableAt inst d s
        ∧ state_key s = k ∧ state_entry s = e := by
  have hinv := loop_invariant inst inst.nb_aircrafts 0 [initial_state inst] []
    (fun s hs => by
      rcases List.mem_singleton.mp hs with rfl
      exact ReachableAt.init)
    (fun k2 es2 e2 hmem2 _ => absurd hmem2 (List.not_mem_nil _))
    k es e (by simpa [compute_meta_states] using hk) he
  rcases hinv with ⟨d, s, hd, hr, hkey, hent⟩
  have hlen := reachable_info_length inst d s hr
  refine ⟨?_, ?_, ?_, ⟨d, s, by omega, hr, hkey, hent⟩⟩
  · rw [← hent]
    rfl
  · rw [← hent]
    unfold state_entry
    simpa using hlen
  · rw [← hkey]
    unfold state_key
    simpa using hlen

/-- C9 witness: a one-aircraft, one-runway instance; the dictionary holds
exactly the initial meta-state at depth 0. -/
theorem C9_meta_states_witness :
    ((-1 : Int), [(-1 : Int)]).1 = ((-1 : Int), [(-1 : Int)]).2.sum
    ∧ ((-1 : Int), [(-1 : Int)]).2.length
        = (AlpInstance.mk 1 1 1 [0] [0] [10] [[0]]).nb_runways
    ∧ (([1], [(-1 : Int)]) : MetaKey).2.length
        = (AlpInstance.mk 1 1 1 [0] [0] [10] [[0]]).nb_runways
    ∧ ∃ d s, d < (AlpInstance.mk 1 1 1 [0] [0] [10] [[0]]).nb_aircrafts
        ∧ ReachableAt (AlpInstance.mk 1 1 1 [0] [0] [10] [[0]]) d s
        ∧ state_key s = (([1], [(-1 : Int)]) : MetaKey)
        ∧ state_entry s = ((-1 : Int), [(-1 : Int)]) :=
  C9_meta_states (AlpInstance.mk 1 1 1 [0] [0] [10] [[0]])
    (([1], [(-1 : Int)]) : MetaKey) [((-1 : Int), [(-1 : Int)])] ((-1 : Int), [(-1 : Int)])
    (by decide) (by decide)

/- ===== solution replay (solve.rs lines 161-176) ===== -/

/-- Rust derived Ord on RunwayState: lexicographic on (prev_time,
prev_class).  Modelled from the spec (the derive lives in model.rs, which
is not among the provided sources). -/
def rsLt (a b : RunwayState) : Bool :=
  if a.prev_time < b.prev_time then true
  else if b.prev_time < a.prev_time then false
  else decide (a.prev_class < b.prev_class)

/-- Rust derived Ord on the schedule pairs (isize, usize). -/
def schedPairLt (a b : Int × Nat) : Bool :=
  if a.1 < b.1 then true else if b.1 < a.1 then false else decide (a.2 < b.2)

/-- Rust derived Ord on Vec of schedule pairs. -/
def schedLt : List (Int × Nat) → List (Int × Nat) → Bool
  | [], [] => false
  | [], _ :: _ => true
  | _ :: _, [] => false
  | a :: as1, b :: bs =>
    if schedPairLt a b then true else if schedPairLt b a then false else schedLt as1 bs

/-- Rust derived Ord on the runway records (RunwayState, schedule list). -/
def runwayRecLt (a b : RunwayState × List (Int × Nat)) : Bool :=
  if rsLt a.1 b.1 then true else if rsLt b.1 a.1 then false else schedLt a.2 b.2

def insert_runway (x : RunwayState × List (Int × Nat)) :
    List (RunwayState × List (Int × Nat)) → List (RunwayState × List (Int × Nat))
  | [] => [x]
  | y :: ys => if runwayRecLt y x = true then y :: insert_runway x ys else x :: y :: ys

/-- runways.sort_unstable() of solve.rs line 172: sort the runway records
into nondecreasing order. -/
def sort_runways (l : List (RunwayState × List (Int × Nat))) :
    List (RunwayState × List (Int × Nat)) :=
  l.foldr insert_runway []

/-- solve.rs lines 164-175: one iteration of the replay loop.  The
aircraft is read at next[class][cur.rem[class]] (line 166), the record at
position runway is overwritten with the new RunwayState and the appended
pair, the vector is re-sorted (line 172), and the state advances by the
transition. -/
def replay_step (inst : AlpInstance)
    (acc : List (RunwayState × List (Int × Nat)) × AlpState) (dec : Int) :
    List (RunwayState × List (Int × Nat)) × AlpState :=
  let cr := from_decision dec inst.nb_runways
  let aircraft := ((alp_next inst).getD cr.1 []).getD (acc.2.rem.getD cr.1 0) 0
  let arrival := get_arrival_time inst acc.2.info aircraft cr.2
  let rec0 := acc.1.getD cr.2 (RunwayState.mk (-1) (-1), [])
  let rw1 := acc.1.set cr.2
    (RunwayState.mk arrival (Int.ofNat (inst.classes.getD aircraft 0)),
      rec0.2 ++ [(arrival, aircraft)])
  (sort_runways rw1, transition inst acc.2 dec)

/-- solve.rs lines 161-176: replay the best solution from the initial
state, starting from one empty record per runway. -/
def replay (inst : AlpInstance) (decisions : List Int) :
    List (RunwayState × List (Int × Nat)) :=
  (decisions.foldl (replay_step inst)
    (List.replicate inst.nb_runways (RunwayState.mk (-1) (-1), []), initial_state inst)).1

/-- C5: on the two-aircraft single-class instance, next[0] is [1, 0] and
the initial rem[0] is 2, so the replay access next[0][cur.rem[0]] of
solve.rs line 166 reads index 2 of a length-2 vector (a panic in Rust),
while the index rem[0] - 1 stated by the claim names aircraft 0, the
lowest-index remaining aircraft. -/
theorem C5_replay_index_bug :
    (alp_next (AlpInstance.mk 1 2 1 [0, 0] [0, 10] [100, 100] [[5]])).getD 0 [] = [1, 0]
    ∧ (initial_state (AlpInstance.mk 1 2 1 [0, 0] [0, 10] [100, 100] [[5]])).rem.getD 0 0 = 2
    ∧ ((alp_next (AlpInstance.mk 1 2 1 [0, 0] [0, 10] [100, 100] [[5]])).getD 0 []).length = 2
    ∧ ((alp_next (AlpInstance.mk 1 2 1 [0, 0] [0, 10] [100, 100] [[5]])).getD 0 []).getD
        ((initial_state (AlpInstance.mk 1 2 1 [0, 0] [0, 10] [100, 100] [[5]])).rem.getD 0 0 - 1)
        0 = 0 := by
  refine ⟨rfl, by decide, by decide, by decide⟩

/-- C6: replaying the two-runway solution [(class 0, runway 0), (class 0,
runway 1)] appends both schedule pairs to the same record and leaves the
other record empty, because the vector is re-sorted inside the loop and
then indexed by runway position: the printed lines are not one aircraft
per runway. -/
theorem C6_replay_scramble :
    replay (AlpInstance.mk 1 2 2 [0, 0] [0, 0] [100, 100] [[50]]) [0, 1]
      = [(RunwayState.mk (-1) (-1), []), (RunwayState.mk 0 0, [(0, 0), (0, 0)])]
    ∧ (replay (AlpInstance.mk 1 2 2 [0, 0] [0, 0] [100, 100] [[50]]) [0, 1]).map
        (fun p => p.2.length) ≠ [1, 1] := by
  refine ⟨by decide, by decide⟩

/-- C7: the printed best value equals the negation of the maximize() value
when one exists, and equals the maximum signed integer (2^63 - 1 on the
64-bit target) when maximize() returns no value. -/
theorem C7_printed_best_value :
    (∀ v : Int, printed_best_value (some v) = -v) ∧
    printed_best_value none = isize_max ∧ isize_max = 2 ^ 63 - 1 := by
  refine ⟨fun v => rfl, rfl, rfl⟩

/-- C10: decompress is the identity on decision vectors. -/
theorem C10_decompress_id : ∀ v : List Int, decompress v = v := fun _ => rfl

/- ===== the dominance key (dominance.rs lines 7-26) ===== -/

/-- dominance.rs lines 15-23: key equality returns false when the rem
vectors differ, and otherwise zips the two info vectors and compares
prev_class position-wise. -/
def alp_key_eq (s1 s2 : AlpState) : Bool :=
  if s1.rem ≠ s2.rem then false
  else (s1.info.zip s2.info).all (fun p => decide (p.1.prev_class = p.2.prev_class))

/-- dominance.rs lines 9-12: the data fed to the hasher, in order: the rem
vector, then the prev_class of each info entry in runway order.  Two states
with equal streams hash identically under every Hasher. -/
def alp_key_hash_stream (s : AlpState) : List Nat × List Int :=
  (s.rem, s.info.map (fun rs => rs.prev_class))

/-- C4 counterexample: two states with equal rem whose info vectors are
permutations of each other (equal as multisets) but in a different order
compare unequal under AlpKey equality and feed different streams to the
hasher. -/
theorem C4_permutation_counterexample :
    (AlpState.mk [0] [⟨3, 0⟩, ⟨4, 1⟩]).rem = (AlpState.mk [0] [⟨4, 1⟩, ⟨3, 0⟩]).rem
    ∧ (AlpState.mk [0] [⟨3, 0⟩, ⟨4, 1⟩]).info.Perm (AlpState.mk [0] [⟨4, 1⟩, ⟨3, 0⟩]).info
    ∧ alp_key_eq (AlpState.mk [0] [⟨3, 0⟩, ⟨4, 1⟩]) (AlpState.mk [0] [⟨4, 1⟩, ⟨3, 0⟩]) = false
    ∧ alp_key_hash_stream (AlpState.mk [0] [⟨3, 0⟩, ⟨4, 1⟩])
        ≠ alp_key_hash_stream (AlpState.mk [0] [⟨4, 1⟩, ⟨3, 0⟩]) := by
  refine ⟨rfl, List.Perm.swap _ _ _, by decide, by decide⟩

theorem zip_all_of_map_eq (f : RunwayState → Int) :
    ∀ (l1 l2 : List RunwayState), l1.map f = l2.map f →
      (l1.zip l2).all (fun p => decide (f p.1 = f p.2)) = true := by
  intro l1
  induction l1 with
  | nil => intro l2 _; rfl
  | cons x xs ih =>
    intro l2 hmap
    cases l2 with
    | nil => simp at hmap
    | cons y ys =>
      simp only [List.map_cons, List.cons.injEq] at hmap
      simp only [List.zip_cons_cons, List.all_cons, Bool.and_eq_true, decide_eq_true_eq]
      exact ⟨hmap.1, ih ys hmap.2⟩

/-- C4 amended: the dominance key depends only on rem and the ordered
sequence of per-runway prev_class values (in particular not on prev_time):
equal rem and position-wise equal prev_class sequences give equal keys and
identical hasher input streams.  Multiset equality of info alone does not
suffice (see the counterexample). -/
theorem C4_key_position_wise (s1 s2 : AlpState)
    (hrem : s1.rem = s2.rem)
    (hpc : s1.info.map (fun rs => rs.prev_class) = s2.info.map (fun rs => rs.prev_class)) :
    alp_key_eq s1 s2 = true ∧ alp_key_hash_stream s1 = alp_key_hash_stream s2 := by
  constructor
  · unfold alp_key_eq
    rw [if_neg (by simp [hrem])]
    exact zip_all_of_map_eq _ s1.info s2.info hpc
  · unfold alp_key_hash_stream
    rw [hrem, hpc]

/-- C4 amended witness: two states that differ only in prev_time have equal
keys and equal hash streams. -/
theorem C4_key_position_wise_witness :
    alp_key_eq (AlpState.mk [1] [⟨5, 2⟩]) (AlpState.mk [1] [⟨9, 2⟩]) = true
    ∧ alp_key_hash_stream (AlpState.mk [1] [⟨5, 2⟩])
        = alp_key_hash_stream (AlpState.mk [1] [⟨9, 2⟩]) :=
  C4_key_position_wise (AlpState.mk [1] [⟨5, 2⟩]) (AlpState.mk [1] [⟨9, 2⟩])
    (by decide) (by decide)

end ALP
